import Mathlib

/-!
Verification of the buff-utils core: the `Buff` byte-buffer operations and the
`Stream` sequential reader, with the shared varint codec, shallowly embedded
from `src/buff.ts`.  Bytes are natural numbers, buffers are lists of bytes,
fallible operations return `Except` over an explicit error kind.  The format
and padding collaborators (`fmt.numToBytes`, `fmt.bytesToNum`, `fmt.hexToBytes`,
`fmt.bytesToHex`, `util.pad_array`) live outside the provided sources and are
modelled from the specification; each such definition says so in its comment.
-/

namespace BuffUtils

/-- Endianness parameter: big-endian or little-endian, default big-endian. -/
inductive Endian
  | be
  | le
  deriving DecidableEq

/-- Error kinds of the core: reader bounds violations (`SizeExceeded`),
varint encoding overflow (`ValueTooLarge`), and the defensive branch of
`readSize` (`VarintOutOfRange`, the source throws "Varint is out of range";
the specification calls this error kind InvalidPrefix). -/
inductive Err
  | SizeExceeded
  | ValueTooLarge
  | VarintOutOfRange
  deriving DecidableEq

/-- A byte buffer: a list of byte values. -/
abbrev Buff := List Nat

deriving instance DecidableEq for Except

/-- Modelled from the spec: the numeric-to-bytes collaborator `fmt.numToBytes`
(in `src/format`, absent from the provided sources).  Produces the minimal
little-endian base-256 digits of the value, least significant first; zero and
non-positive values produce no digits (loop form).  Fuel-indexed so that the
recursion is structural; `numToBytes` instantiates the fuel. -/
def numToBytesAux : Nat → Nat → List Nat
  | 0, _ => []
  | fuel + 1, n => if n = 0 then [] else n % 256 :: numToBytesAux fuel (n / 256)

/-- Modelled from the spec: minimal little-endian base-256 digits of a natural
number (see `numToBytesAux`). -/
def numToBytes (n : Nat) : List Nat :=
  numToBytesAux n n

/-- Modelled from the spec: the bytes-to-numeric collaborator `fmt.bytesToNum`,
interpreting bytes in the internal little-endian natural order. -/
def bytesToNum : List Nat → Nat
  | [] => 0
  | b :: bs => b + 256 * bytesToNum bs

/-- Modelled from the spec: the pad/truncate collaborator `util.pad_array`
(in `src/utils`, absent from the provided sources): resizes a byte array to
exactly the target length.  The spec leaves the padded side open; zero-padding
at the front (and truncating from the front) is chosen here, being the unique
exact-size policy that validates the spec's default big-endian varint round
trip. -/
def pad_array (arr : List Nat) (size : Nat) : List Nat :=
  if arr.length ≤ size then List.replicate (size - arr.length) 0 ++ arr
  else arr.drop (arr.length - size)

/-- The `Buff` constructor on already-coerced bytes: an optional target size
resizes the bytes to exactly that length. -/
def mkBuff (data : Buff) : Option Nat → Buff
  | none => data
  | some size => pad_array data size

/-- `numToBuff` (`Buff.num`) from the source: take the natural little-endian
digits, reverse them when the endianness (defaulting to big-endian) is
big-endian, then apply the optional resize. -/
def numToBuff (number : Int) (size : Option Nat) (endian : Option Endian) : Buff :=
  let n := numToBytes number.toNat
  let r := if Option.getD endian Endian.be = Endian.be then n.reverse else n
  mkBuff r size

/-- `Buff.varInt` from the source: the four-form variable-length integer
encoding with leading marker byte. -/
def varInt (num : Int) (endian : Option Endian) : Except Err Buff :=
  if num < 0xFD then Except.ok (numToBuff num (some 1) none)
  else if num < 0x10000 then Except.ok (0xFD :: numToBuff num (some 2) endian)
  else if num < 0x100000000 then Except.ok (0xFE :: numToBuff num (some 4) endian)
  else if num < 0x10000000000000000 then Except.ok (0xFF :: numToBuff num (some 8) endian)
  else Except.error Err.ValueTooLarge

/-- `Buff.reverse` from the source: a new buffer holding the bytes in reverse
order (the receiver is not mutated; in this pure embedding the receiver is a
value, so non-mutation is inherent). -/
def Buff.reverse (b : Buff) : Buff :=
  List.reverse b

/-- `Buff.toNum` from the source: with big-endian (the default) the bytes are
reversed before the little-endian interpretation. -/
def toNum (b : Buff) (endian : Option Endian) : Nat :=
  match Option.getD endian Endian.be with
  | Endian.be => bytesToNum (Buff.reverse b)
  | Endian.le => bytesToNum b

/-- Modelled from the spec: value of a single hexadecimal digit character, for
the hex decode collaborator. -/
def hexDigitVal (c : Char) : Option Nat :=
  if 48 ≤ c.toNat ∧ c.toNat ≤ 57 then some (c.toNat - 48)
  else if 97 ≤ c.toNat ∧ c.toNat ≤ 102 then some (c.toNat - 87)
  else if 65 ≤ c.toNat ∧ c.toNat ≤ 70 then some (c.toNat - 55)
  else none

/-- Modelled from the spec: decode a list of hex digit characters two at a
time, failing on an odd count or a non-hex character. -/
def hexPairs : List Char → Option (List Nat)
  | [] => some []
  | [_] => none
  | a :: b :: rest =>
    match hexDigitVal a, hexDigitVal b, hexPairs rest with
    | some x, some y, some r => some ((16 * x + y) :: r)
    | _, _, _ => none

/-- Modelled from the spec: the hex-to-bytes collaborator `fmt.hexToBytes`
(absent from the provided sources): decodes an even-length hex string, failing
on malformed input. -/
def hexToBytes (s : String) : Option (List Nat) :=
  hexPairs s.data

/-- `hexToBuff` (`Buff.hex`) from the source, over the modelled decoder. -/
def hexToBuff (data : String) (size : Option Nat) : Option Buff :=
  (hexToBytes data).map (fun b => mkBuff b size)

/-- Modelled from the spec: one lowercase hexadecimal digit character. -/
def hexChar (n : Nat) : Char :=
  if n < 10 then Char.ofNat (48 + n) else Char.ofNat (87 + n)

/-- Modelled from the spec: the bytes-to-hex collaborator `fmt.bytesToHex`
(absent from the provided sources): lowercase hex encoding, two digits per
byte. -/
def bytesToHex (bs : List Nat) : String :=
  String.mk ((bs.map (fun b => [hexChar (b / 16 % 16), hexChar (b % 16)])).flatten)

/-- The `Stream` (sequential reader) state from the source: a remaining-length
field and the remaining bytes. -/
structure Stream where
  size : Nat
  data : Buff
  deriving DecidableEq

/-- The `Stream` constructor from the source: the reader owns its bytes and the
size field is initialized to their length. -/
def mkStream (data : Buff) : Stream :=
  ⟨data.length, data⟩

/-- `Stream.peek` from the source: bounds check against the size field, then a
copy of the first `size` remaining bytes; no state change. -/
def Stream.peek (s : Stream) (size : Nat) : Except Err Buff :=
  if size > s.size then Except.error Err.SizeExceeded
  else Except.ok (s.data.take size)

/-- `Stream.read` with an explicit size, from the source: peek, then drop the
consumed bytes and recompute the size field; the failure is raised before any
mutation, so on failure the state is returned unchanged. -/
def Stream.read (s : Stream) (size : Nat) : Except Err Buff × Stream :=
  match Stream.peek s size with
  | Except.error e => (Except.error e, s)
  | Except.ok chunk => (Except.ok chunk, ⟨(s.data.drop size).length, s.data.drop size⟩)

/-- `Stream.readSize` from the source: the varint decoder.  One byte is read
and interpreted as a number; values below 0xFD are returned directly, the
markers 0xFD/0xFE/0xFF select a 2/4/8-byte integer read, and any other value
hits the defensive failure branch. -/
def Stream.readSize (s : Stream) (endian : Option Endian) : Except Err Nat × Stream :=
  match Stream.read s 1 with
  | (Except.error e, s1) => (Except.error e, s1)
  | (Except.ok c1, s1) =>
    if toNum c1 none < 0xFD then (Except.ok (toNum c1 none), s1)
    else if toNum c1 none = 0xFD then
      match Stream.read s1 2 with
      | (Except.error e, s2) => (Except.error e, s2)
      | (Except.ok c, s2) => (Except.ok (toNum c endian), s2)
    else if toNum c1 none = 0xFE then
      match Stream.read s1 4 with
      | (Except.error e, s2) => (Except.error e, s2)
      | (Except.ok c, s2) => (Except.ok (toNum c endian), s2)
    else if toNum c1 none = 0xFF then
      match Stream.read s1 8 with
      | (Except.error e, s2) => (Except.error e, s2)
      | (Except.ok c, s2) => (Except.ok (toNum c endian), s2)
    else (Except.error Err.VarintOutOfRange, s1)

/-- `Stream.read` with the size argument omitted, from the source: the size is
first decoded from the stream by `readSize` (with no endianness argument),
then that many bytes are read. -/
def Stream.readNoSize (s : Stream) : Except Err Buff × Stream :=
  match Stream.readSize s none with
  | (Except.error e, s1) => (Except.error e, s1)
  | (Except.ok n, s1) => Stream.read s1 n

/-- State-passing form of a `peek` call: the method body assigns no field, so
the receiver state after the call is the receiver state before it. -/
def Stream.peekS (s : Stream) (size : Nat) : Except Err Buff × Stream :=
  (Stream.peek s size, s)

/-- Folding a sequence of `peek` calls over the reader state. -/
def Stream.peekRun (s : Stream) : List Nat → Stream
  | [] => s
  | n :: ns => Stream.peekRun (Stream.peekS s n).2 ns

/-- Folding a sequence of sized `read` calls over the reader state, collecting
the chunks; `none` as soon as one read fails. -/
def Stream.readRun (s : Stream) : List Nat → Option (List Buff × Stream)
  | [] => some ([], s)
  | n :: ns =>
    match Stream.read s n with
    | (Except.ok c, s1) => (Stream.readRun s1 ns).map (fun p => (c :: p.1, p.2))
    | (Except.error _, _) => none

/-- Spec-side definition, from the words of the claim: the k-byte little-endian
encoding of a value, least significant byte first. -/
def leBytes : Nat → Nat → List Nat
  | _, 0 => []
  | n, k + 1 => n % 256 :: leBytes (n / 256) k

/-- Spec-side definition, from the words of the claim: the k-byte big-endian
encoding of a value, most significant byte first. -/
def beBytes (n k : Nat) : List Nat :=
  (leBytes n k).reverse

theorem numToBytesAux_zero (fuel : Nat) : numToBytesAux fuel 0 = [] := by
  cases fuel <;> simp [numToBytesAux]

theorem numToBytesAux_congr :
    ∀ (f1 f2 n : Nat), n ≤ f1 → n ≤ f2 → numToBytesAux f1 n = numToBytesAux f2 n := by
  intro f1
  induction f1 with
  | zero =>
    intro f2 n h1 h2
    have hn : n = 0 := by omega
    subst hn
    rw [numToBytesAux_zero, numToBytesAux_zero]
  | succ f ih =>
    intro f2 n h1 h2
    rcases Nat.eq_zero_or_pos n with hn | hn
    · subst hn
      rw [numToBytesAux_zero, numToBytesAux_zero]
    · obtain ⟨f2p, rfl⟩ : ∃ k, f2 = k + 1 := ⟨f2 - 1, by omega⟩
      have hd : n / 256 < n := Nat.div_lt_self hn (by norm_num)
      have hnz : ¬ n = 0 := by omega
      simp only [numToBytesAux, if_neg hnz]
      rw [ih f2p (n / 256) (by omega) (by omega)]

theorem numToBytes_succ (n : Nat) (h : n ≠ 0) :
    numToBytes n = n % 256 :: numToBytes (n / 256) := by
  obtain ⟨m, rfl⟩ : ∃ m, n = m + 1 := ⟨n - 1, by omega⟩
  have hd : (m + 1) / 256 < m + 1 := Nat.div_lt_self (Nat.succ_pos m) (by norm_num)
  show numToBytesAux (m + 1) (m + 1) = _
  simp only [numToBytesAux, if_neg h]
  rw [numToBytes, numToBytesAux_congr m ((m + 1) / 256) ((m + 1) / 256) (by omega) (by omega)]

theorem bytesToNum_numToBytes (n : Nat) : bytesToNum (numToBytes n) = n := by
  induction n using Nat.strong_induction_on with
  | _ n ih =>
    rcases Nat.eq_zero_or_pos n with hn | hn
    · subst hn
      rfl
    · have hd : n / 256 < n := Nat.div_lt_self hn (by norm_num)
      rw [numToBytes_succ n (by omega)]
      simp only [bytesToNum]
      rw [ih (n / 256) hd]
      omega

theorem numToBytes_length_le : ∀ (k n : Nat), n < 256 ^ k → (numToBytes n).length ≤ k := by
  intro k
  induction k with
  | zero =>
    intro n h
    have hn : n = 0 := by simpa using h
    subst hn
    simp [numToBytes, numToBytesAux]
  | succ k ih =>
    intro n h
    rcases Nat.eq_zero_or_pos n with hn | hn
    · subst hn
      simp [numToBytes, numToBytesAux]
    · rw [numToBytes_succ n (by omega)]
      simp only [List.length_cons]
      have hq : n / 256 < 256 ^ k := by
        rw [Nat.div_lt_iff_lt_mul (by norm_num)]
        calc n < 256 ^ (k + 1) := h
          _ = 256 ^ k * 256 := by ring
      exact Nat.succ_le_succ (ih (n / 256) hq)

theorem bytesToNum_replicate_zero (m : Nat) : bytesToNum (List.replicate m 0) = 0 := by
  induction m with
  | zero => rfl
  | succ m ih => simp [List.replicate, bytesToNum, ih]

theorem bytesToNum_append_zeros (l : List Nat) (m : Nat) :
    bytesToNum (l ++ List.replicate m 0) = bytesToNum l := by
  induction l with
  | nil => simp [bytesToNum, bytesToNum_replicate_zero]
  | cons a l ih => simp [bytesToNum, ih]

theorem pad_array_length (l : List Nat) (k : Nat) : (pad_array l k).length = k := by
  unfold pad_array
  split_ifs with h
  · simp only [List.length_append, List.length_replicate]
    omega
  · simp only [List.length_drop]
    omega

theorem pad_array_of_le (l : List Nat) (k : Nat) (h : l.length ≤ k) :
    pad_array l k = List.replicate (k - l.length) 0 ++ l := by
  unfold pad_array
  rw [if_pos h]

theorem numToBuff_length (x : Int) (k : Nat) (e : Option Endian) :
    (numToBuff x (some k) e).length = k := by
  simp only [numToBuff, mkBuff]
  exact pad_array_length _ _

theorem numToBuff_be (m k : Nat) (e : Option Endian)
    (he : Option.getD e Endian.be = Endian.be) (hk : (numToBytes m).length ≤ k) :
    numToBuff (Int.ofNat m) (some k) e =
      List.replicate (k - (numToBytes m).length) 0 ++ (numToBytes m).reverse := by
  simp only [numToBuff, he, if_pos, mkBuff, Int.toNat_ofNat]
  rw [pad_array_of_le _ _ (by simpa using hk)]
  simp [List.length_reverse]

theorem toNum_be (b : Buff) (e : Option Endian)
    (he : Option.getD e Endian.be = Endian.be) :
    toNum b e = bytesToNum (List.reverse b) := by
  unfold toNum
  rw [he]
  rfl

theorem toNum_numToBuff (m k : Nat) (hm : m < 256 ^ k) (e1 e2 : Option Endian)
    (he1 : Option.getD e1 Endian.be = Endian.be)
    (he2 : Option.getD e2 Endian.be = Endian.be) :
    toNum (numToBuff (Int.ofNat m) (some k) e1) e2 = m := by
  rw [numToBuff_be m k e1 he1 (numToBytes_length_le k m hm), toNum_be _ e2 he2]
  rw [List.reverse_append, List.reverse_reverse, List.reverse_replicate]
  rw [bytesToNum_append_zeros, bytesToNum_numToBytes]

theorem numToBuff_one (m : Nat) (hm : m < 256) :
    numToBuff (Int.ofNat m) (some 1) none = [m] := by
  have hk : (numToBytes m).length ≤ 1 := numToBytes_length_le 1 m (by simpa using hm)
  rw [numToBuff_be m 1 none rfl hk]
  rcases Nat.eq_zero_or_pos m with h | h
  · subst h
    simp [numToBytes, numToBytesAux]
  · rw [numToBytes_succ m (by omega)]
    have h1 : m % 256 = m := Nat.mod_eq_of_lt hm
    have h2 : m / 256 = 0 := Nat.div_eq_of_lt hm
    rw [h1, h2]
    simp [numToBytes, numToBytesAux]

theorem leBytes_eq (k : Nat) :
    ∀ n : Nat, n < 256 ^ k →
      leBytes n k = numToBytes n ++ List.replicate (k - (numToBytes n).length) 0 := by
  induction k with
  | zero =>
    intro n h
    have hn : n = 0 := by simpa using h
    subst hn
    simp [leBytes, numToBytes, numToBytesAux]
  | succ k ih =>
    intro n h
    rcases Nat.eq_zero_or_pos n with hn | hn
    · subst hn
      have h0 : numToBytes 0 = [] := rfl
      have : leBytes 0 k = numToBytes 0 ++ List.replicate (k - (numToBytes 0).length) 0 :=
        ih 0 (Nat.pos_pow_of_pos k (by norm_num))
      simp only [leBytes, Nat.zero_mod, Nat.zero_div]
      rw [this, h0]
      simp [List.replicate_succ]
    · have hq : n / 256 < 256 ^ k := by
        rw [Nat.div_lt_iff_lt_mul (by norm_num)]
        calc n < 256 ^ (k + 1) := h
          _ = 256 ^ k * 256 := by ring
      have hlen : (numToBytes n).length ≤ k + 1 := numToBytes_length_le (k + 1) n h
      rw [numToBytes_succ n (by omega)] at hlen ⊢
      simp only [leBytes, List.length_cons, List.cons_append]
      rw [ih (n / 256) hq]
      have harr : k + 1 - ((numToBytes (n / 256)).length + 1) = k - (numToBytes (n / 256)).length := by
        omega
      rw [harr]

theorem numToBuff_eq_beBytes (m k : Nat) (hm : m < 256 ^ k) (e : Option Endian)
    (he : Option.getD e Endian.be = Endian.be) :
    numToBuff (Int.ofNat m) (some k) e = beBytes m k := by
  rw [numToBuff_be m k e he (numToBytes_length_le k m hm), beBytes, leBytes_eq k m hm]
  rw [List.reverse_append, List.reverse_replicate]

theorem peek_ok (s : Stream) (n : Nat) (h : n ≤ s.size) :
    Stream.peek s n = Except.ok (s.data.take n) := by
  unfold Stream.peek
  rw [if_neg (by omega)]

theorem peek_error_iff (s : Stream) (n : Nat) :
    Stream.peek s n = Except.error Err.SizeExceeded ↔ n > s.size := by
  unfold Stream.peek
  split_ifs with h
  · simp [h]
  · simp [h]

theorem peek_error_eq (s : Stream) (n : Nat) (e : Err)
    (h : Stream.peek s n = Except.error e) : e = Err.SizeExceeded := by
  unfold Stream.peek at h
  split_ifs at h with hc
  exact (Except.error.inj h).symm

theorem read_ok_of_le (s : Stream) (n : Nat) (h : n ≤ s.size) :
    Stream.read s n = (Except.ok (s.data.take n), ⟨(s.data.drop n).length, s.data.drop n⟩) := by
  unfold Stream.read
  rw [peek_ok s n h]

theorem read_all (k : Nat) (F : Buff) (hF : F.length = k) :
    Stream.read (⟨k, F⟩ : Stream) k = (Except.ok F, ⟨0, []⟩) := by
  have h : Stream.read (⟨k, F⟩ : Stream) k =
      (Except.ok (F.take k), ⟨(F.drop k).length, F.drop k⟩) :=
    read_ok_of_le _ _ (Nat.le_refl k)
  rw [h]
  subst hF
  simp [List.take_length, List.drop_length]

theorem read_error_inv (s : Stream) (n : Nat) (e : Err) (t : Stream)
    (h : Stream.read s n = (Except.error e, t)) :
    e = Err.SizeExceeded ∧ t = s := by
  unfold Stream.read at h
  cases hp : Stream.peek s n with
  | error e2 =>
    rw [hp] at h
    injection h with h1 h2
    injection h1 with h1
    refine ⟨?_, h2.symm⟩
    rw [← h1]
    exact peek_error_eq s n e2 hp
  | ok c =>
    rw [hp] at h
    injection h with h1 h2
    exact Except.noConfusion h1

theorem read_ok_inv (s : Stream) (n : Nat) (c : Buff) (t : Stream)
    (h : Stream.read s n = (Except.ok c, t)) :
    n ≤ s.size ∧ c = s.data.take n ∧ t = ⟨(s.data.drop n).length, s.data.drop n⟩ := by
  by_cases hc : n ≤ s.size
  · rw [read_ok_of_le s n hc] at h
    injection h with h1 h2
    injection h1 with h1
    exact ⟨hc, h1.symm, h2.symm⟩
  · unfold Stream.read Stream.peek at h
    rw [if_pos (by omega)] at h
    simp at h

theorem toNum_single (b : Nat) : toNum [b] none = b := by
  simp [toNum, Buff.reverse, bytesToNum]

theorem readSize_small (b : Nat) (hb : b < 0xFD) (e : Option Endian) :
    Stream.readSize (mkStream [b]) e = (Except.ok b, ⟨0, []⟩) := by
  have h1 : Stream.read (mkStream [b]) 1 = (Except.ok [b], ⟨0, []⟩) := by
    have := read_ok_of_le (mkStream [b]) 1 (by simp [mkStream])
    simpa [mkStream] using this
  unfold Stream.readSize
  rw [h1]
  simp [toNum_single, hb]

theorem readSize_marker (marker k : Nat) (F : Buff) (e : Option Endian)
    (hm : (marker = 0xFD ∧ k = 2) ∨ (marker = 0xFE ∧ k = 4) ∨ (marker = 0xFF ∧ k = 8))
    (hF : F.length = k) :
    Stream.readSize (mkStream (marker :: F)) e = (Except.ok (toNum F e), ⟨0, []⟩) := by
  have h1 : Stream.read (mkStream (marker :: F)) 1 = (Except.ok [marker], ⟨k, F⟩) := by
    have := read_ok_of_le (mkStream (marker :: F)) 1 (by simp [mkStream])
    simpa [mkStream, hF] using this
  unfold Stream.readSize
  rw [h1]
  rcases hm with ⟨hm1, hk⟩ | ⟨hm1, hk⟩ | ⟨hm1, hk⟩ <;> subst hm1 <;> subst hk <;>
    simp [toNum_single, read_all _ F hF]

theorem readSize_ok_inv (s : Stream) (e : Option Endian) (m : Nat) (t : Stream)
    (h : Stream.readSize s e = (Except.ok m, t)) :
    t.size = t.data.length ∧ (s.size = s.data.length → t.size ≤ s.size) := by
  unfold Stream.readSize at h
  rcases hE : Stream.read s 1 with ⟨r1, s1⟩
  rw [hE] at h
  cases r1 with
  | error e1 => simp at h
  | ok c1 =>
    obtain ⟨hle1, hc1, hs1⟩ := read_ok_inv s 1 c1 s1 hE
    have hwf1 : s1.size = s1.data.length := by rw [hs1]
    have hsz1 : s.size = s.data.length → s1.size ≤ s.size := by
      intro hwf
      rw [hs1]
      simp only [List.length_drop]
      omega
    dsimp only at h
    split_ifs at h with h1 h2 h3 h4
    · injection h with ha hb
      rw [← hb]
      exact ⟨hwf1, hsz1⟩
    · rcases hE2 : Stream.read s1 2 with ⟨r2, s2⟩
      rw [hE2] at h
      cases r2 with
      | error e2 => simp at h
      | ok c2 =>
        obtain ⟨hle2, hc2, hs2⟩ := read_ok_inv s1 2 c2 s2 hE2
        injection h with ha hb
        rw [← hb, hs2]
        refine ⟨rfl, fun hwf => ?_⟩
        have := hsz1 hwf
        simp only [List.length_drop]
        omega
    · rcases hE2 : Stream.read s1 4 with ⟨r2, s2⟩
      rw [hE2] at h
      cases r2 with
      | error e2 => simp at h
      | ok c2 =>
        obtain ⟨hle2, hc2, hs2⟩ := read_ok_inv s1 4 c2 s2 hE2
        injection h with ha hb
        rw [← hb, hs2]
        refine ⟨rfl, fun hwf => ?_⟩
        have := hsz1 hwf
        simp only [List.length_drop]
        omega
    · rcases hE2 : Stream.read s1 8 with ⟨r2, s2⟩
      rw [hE2] at h
      cases r2 with
      | error e2 => simp at h
      | ok c2 =>
        obtain ⟨hle2, hc2, hs2⟩ := read_ok_inv s1 8 c2 s2 hE2
        injection h with ha hb
        rw [← hb, hs2]
        refine ⟨rfl, fun hwf => ?_⟩
        have := hsz1 hwf
        simp only [List.length_drop]
        omega
    · simp at h

theorem peekRun_id (s : Stream) : ∀ ns : List Nat, Stream.peekRun s ns = s := by
  intro ns
  induction ns with
  | nil => rfl
  | cons n ns ih => simpa [Stream.peekRun, Stream.peekS] using ih

theorem readRun_partition :
    ∀ (ns : List Nat) (s : Stream), s.size = s.data.length → ns.sum = s.size →
      ∃ cs, Stream.readRun s ns = some (cs, ⟨0, []⟩) ∧ cs.flatten = s.data := by
  intro ns
  induction ns with
  | nil =>
    intro s hwf hsum
    rcases s with ⟨sz, d⟩
    simp only [List.sum_nil] at hsum
    have hz : sz = 0 := hsum.symm
    subst hz
    have hd : d = [] := by
      have : d.length = 0 := hwf.symm
      exact List.eq_nil_of_length_eq_zero this
    subst hd
    exact ⟨[], rfl, rfl⟩
  | cons n ns ih =>
    intro s hwf hsum
    simp only [List.sum_cons] at hsum
    have hn : n ≤ s.size := by omega
    have hread := read_ok_of_le s n hn
    have hsum2 : ns.sum = (s.data.drop n).length := by
      simp only [List.length_drop]
      omega
    obtain ⟨cs, hrun, hflat⟩ :=
      ih (⟨(s.data.drop n).length, s.data.drop n⟩ : Stream) rfl hsum2
    refine ⟨s.data.take n :: cs, ?_, ?_⟩
    · unfold Stream.readRun
      rw [hread]
      dsimp only
      rw [hrun]
      rfl
    · simp only [List.flatten_cons, hflat]
      exact List.take_append_drop n s.data

/-- C1 (amended): for every integer n with 0 ≤ n < 2^64 and every
big-endian-or-omitted endianness argument, decoding with readSize over exactly
the bytes produced by varInt (same endianness) yields n and consumes all of
those bytes (the final reader state is the empty reader); for every n ≥ 2^64,
varInt fails with ValueTooLarge.  The little-endian instance of the original
claim is refuted by varInt_readSize_roundtrip_le_cex: the endianness-agnostic
padding of a multi-byte field cannot round-trip under both byte orders. -/
theorem varInt_readSize_roundtrip (n : Int) (e : Option Endian) :
    (0 ≤ n → n < 2 ^ 64 → Option.getD e Endian.be = Endian.be →
      ∃ enc : Buff, varInt n e = Except.ok enc ∧
        Stream.readSize (mkStream enc) e = (Except.ok n.toNat, ⟨0, []⟩)) ∧
    (2 ^ 64 ≤ n → varInt n e = Except.error Err.ValueTooLarge) := by
  constructor
  · intro h0 h64 he
    obtain ⟨m, rfl⟩ : ∃ m : Nat, n = Int.ofNat m := ⟨n.toNat, (Int.toNat_of_nonneg h0).symm⟩
    have htn : (Int.ofNat m).toNat = m := rfl
    rw [htn]
    have hp : (2 : Int) ^ 64 = 18446744073709551616 := by norm_num
    rw [hp] at h64
    have hm64 : m < 18446744073709551616 := by omega
    by_cases hA : m < 0xFD
    · refine ⟨numToBuff (Int.ofNat m) (some 1) none, ?_, ?_⟩
      · unfold varInt
        rw [if_pos (by omega)]
      · rw [numToBuff_one m (by omega)]
        exact readSize_small m hA e
    · by_cases hB : m < 0x10000
      · refine ⟨0xFD :: numToBuff (Int.ofNat m) (some 2) e, ?_, ?_⟩
        · unfold varInt
          rw [if_neg (by omega), if_pos (by omega)]
        · rw [readSize_marker 0xFD 2 _ e (Or.inl ⟨rfl, rfl⟩) (numToBuff_length _ _ _),
            toNum_numToBuff m 2 (by norm_num; omega) e e he he]
      · by_cases hC : m < 0x100000000
        · refine ⟨0xFE :: numToBuff (Int.ofNat m) (some 4) e, ?_, ?_⟩
          · unfold varInt
            rw [if_neg (by omega), if_neg (by omega), if_pos (by omega)]
          · rw [readSize_marker 0xFE 4 _ e (Or.inr (Or.inl ⟨rfl, rfl⟩)) (numToBuff_length _ _ _),
              toNum_numToBuff m 4 (by norm_num; omega) e e he he]
        · refine ⟨0xFF :: numToBuff (Int.ofNat m) (some 8) e, ?_, ?_⟩
          · unfold varInt
            rw [if_neg (by omega), if_neg (by omega), if_neg (by omega), if_pos (by omega)]
          · rw [readSize_marker 0xFF 8 _ e (Or.inr (Or.inr ⟨rfl, rfl⟩)) (numToBuff_length _ _ _),
              toNum_numToBuff m 8 (by norm_num; omega) e e he he]
  · intro h
    have h2 : (2 : Int) ^ 64 = 18446744073709551616 := by norm_num
    rw [h2] at h
    unfold varInt
    rw [if_neg (by omega), if_neg (by omega), if_neg (by omega), if_neg (by omega)]

/-- Witness for C1 at n = 300 with the endianness argument omitted. -/
theorem varInt_readSize_roundtrip_witness :
    ∃ enc : Buff, varInt 300 none = Except.ok enc ∧
      Stream.readSize (mkStream enc) none = (Except.ok (Int.toNat 300), ⟨0, []⟩) :=
  (varInt_readSize_roundtrip 300 none).1 (by norm_num) (by norm_num) rfl

/-- Counterexample to C1 as stated: with little-endian requested on both sides,
encoding 253 produces the bytes fd 00 fd, and decoding them yields 64768, not
253 — the front zero-padding of the 2-byte field is only value-preserving for
the big-endian interpretation. -/
theorem varInt_readSize_roundtrip_le_cex :
    varInt 253 (some Endian.le) = Except.ok [0xFD, 0x00, 0xFD] ∧
    Stream.readSize (mkStream [0xFD, 0x00, 0xFD]) (some Endian.le) =
      (Except.ok 64768, ⟨0, []⟩) ∧
    (64768 : Nat) ≠ 253 := by
  decide

/-- C2 (amended): for every non-negative value, varInt produces exactly the
four spec forms — a single byte below 0xFD, and marker byte then 2/4/8-byte
big-endian integer in the other ranges — whenever the requested endianness is
big-endian or omitted (the default).  For little-endian the multi-byte field is
instead the value's minimal little-endian digits zero-padded at the front, which
deviates from the claimed little-endian form exactly when the value fits in
fewer bytes than the field; see varInt_wire_forms_le_cex. -/
theorem varInt_wire_forms (v : Int) (e : Option Endian) (h0 : 0 ≤ v) :
    (v < 0xFD → varInt v e = Except.ok [v.toNat]) ∧
    (Option.getD e Endian.be = Endian.be →
      (0xFD ≤ v → v < 0x10000 → varInt v e = Except.ok (0xFD :: beBytes v.toNat 2)) ∧
      (0x10000 ≤ v → v < 0x100000000 → varInt v e = Except.ok (0xFE :: beBytes v.toNat 4)) ∧
      (0x100000000 ≤ v → v < 0x10000000000000000 →
        varInt v e = Except.ok (0xFF :: beBytes v.toNat 8))) := by
  obtain ⟨m, rfl⟩ : ∃ m : Nat, v = Int.ofNat m := ⟨v.toNat, (Int.toNat_of_nonneg h0).symm⟩
  have htn : (Int.ofNat m).toNat = m := rfl
  rw [htn]
  constructor
  · intro hA
    have hA' : m < 253 := by omega
    unfold varInt
    rw [if_pos hA, numToBuff_one m (by omega)]
  · intro he
    refine ⟨fun hlo hhi => ?_, fun hlo hhi => ?_, fun hlo hhi => ?_⟩
    · unfold varInt
      rw [if_neg (by omega), if_pos hhi,
        numToBuff_eq_beBytes m 2 (by norm_num; omega) e he]
    · unfold varInt
      rw [if_neg (by omega), if_neg (by omega), if_pos hhi,
        numToBuff_eq_beBytes m 4 (by norm_num; omega) e he]
    · unfold varInt
      rw [if_neg (by omega), if_neg (by omega), if_neg (by omega), if_pos hhi,
        numToBuff_eq_beBytes m 8 (by norm_num; omega) e he]

/-- Witness for C2 at v = 65536 (4-byte form) with the endianness omitted. -/
theorem varInt_wire_forms_witness :
    varInt 65536 none = Except.ok (0xFE :: beBytes (Int.toNat 65536) 4) :=
  ((varInt_wire_forms 65536 none (by norm_num)).2 rfl).2.1 (by norm_num) (by norm_num)

/-- Counterexample to C2 as stated: with little-endian requested, varInt 253
produces fd 00 fd, not the marker followed by the 2-byte little-endian encoding
of 253 (which would be fd fd 00). -/
theorem varInt_wire_forms_le_cex :
    varInt 253 (some Endian.le) = Except.ok [0xFD, 0x00, 0xFD] ∧
    varInt 253 (some Endian.le) ≠ Except.ok (0xFD :: leBytes 253 2) := by
  decide

/-- C3 (confirmed): on any stream whose remaining bytes are genuine byte values
(below 256) and non-empty, readSize never returns the defensive
invalid-leading-byte failure (source message "Varint is out of range", spec
name InvalidPrefix): every value 0-255 of the first consumed byte is handled
by one of the four cases, so the only possible failure is SizeExceeded from an
inner read. -/
theorem readSize_defensive_unreachable (s : Stream) (e : Option Endian)
    (hne : s.data ≠ []) (hbytes : ∀ b ∈ s.data, b < 256) :
    (Stream.readSize s e).1 ≠ Except.error Err.VarintOutOfRange := by
  unfold Stream.readSize
  rcases hE : Stream.read s 1 with ⟨r1, s1⟩
  cases r1 with
  | error e1 =>
    have he1 : e1 = Err.SizeExceeded := (read_error_inv s 1 e1 s1 hE).1
    subst he1
    exact fun hco => Err.noConfusion (Except.error.inj hco)
  | ok c1 =>
    obtain ⟨hle1, hc1, hs1⟩ := read_ok_inv s 1 c1 s1 hE
    obtain ⟨b, rest, hd⟩ : ∃ b rest, s.data = b :: rest := by
      cases hdata : s.data with
      | nil => exact absurd hdata hne
      | cons b r => exact ⟨b, r, rfl⟩
    have hb : b < 256 := hbytes b (by rw [hd]; exact List.mem_cons_self b rest)
    have hc1' : c1 = [b] := by rw [hc1, hd]; rfl
    subst hc1'
    dsimp only
    rw [toNum_single]
    split_ifs with h1 h2 h3 h4
    · simp
    · rcases hE2 : Stream.read s1 2 with ⟨r2, s2⟩
      cases r2 with
      | error e2 =>
        have he2 : e2 = Err.SizeExceeded := (read_error_inv s1 2 e2 s2 hE2).1
        subst he2
        exact fun hco => Err.noConfusion (Except.error.inj hco)
      | ok c2 => simp
    · rcases hE2 : Stream.read s1 4 with ⟨r2, s2⟩
      cases r2 with
      | error e2 =>
        have he2 : e2 = Err.SizeExceeded := (read_error_inv s1 4 e2 s2 hE2).1
        subst he2
        exact fun hco => Err.noConfusion (Except.error.inj hco)
      | ok c2 => simp
    · rcases hE2 : Stream.read s1 8 with ⟨r2, s2⟩
      cases r2 with
      | error e2 =>
        have he2 : e2 = Err.SizeExceeded := (read_error_inv s1 8 e2 s2 hE2).1
        subst he2
        exact fun hco => Err.noConfusion (Except.error.inj hco)
      | ok c2 => simp
    · omega

/-- Witness for C3: a one-byte stream holding 0xFF; readSize fails on the inner
8-byte read, but with SizeExceeded rather than the defensive failure. -/
theorem readSize_defensive_unreachable_witness :
    (Stream.readSize (mkStream [0xFF]) none).1 ≠ Except.error Err.VarintOutOfRange :=
  readSize_defensive_unreachable (mkStream [0xFF]) none (by decide) (by decide)

/-- C4 (confirmed): peek and read fail with SizeExceeded exactly when the
requested size exceeds the reader's current remaining length (the size field),
SizeExceeded is the only error either can produce, and a failed read leaves
the reader state unchanged (peek never touches the state at all, having no
state output in this embedding). -/
theorem peek_read_bounds (s : Stream) (n : Nat) :
    (Stream.peek s n = Except.error Err.SizeExceeded ↔ n > s.size) ∧
    ((Stream.read s n).1 = Except.error Err.SizeExceeded ↔ n > s.size) ∧
    (∀ er : Err, Stream.peek s n = Except.error er → er = Err.SizeExceeded) ∧
    (∀ er : Err, (Stream.read s n).1 = Except.error er →
      er = Err.SizeExceeded ∧ (Stream.read s n).2 = s) := by
  refine ⟨peek_error_iff s n, ?_, fun er h => peek_error_eq s n er h, ?_⟩
  · constructor
    · intro h
      by_cases hc : n ≤ s.size
      · rw [read_ok_of_le s n hc] at h
        simp at h
      · omega
    · intro h
      unfold Stream.read Stream.peek
      rw [if_pos h]
  · intro er h
    rcases hE : Stream.read s n with ⟨r, t⟩
    cases r with
    | error e2 =>
      rw [hE] at h
      have h3 : (Except.error e2 : Except Err Buff) = Except.error er := h
      injection h3 with h3
      obtain ⟨h1, h2⟩ := read_error_inv s n e2 t hE
      refine ⟨?_, h2⟩
      rw [← h3]
      exact h1
    | ok c =>
      rw [hE] at h
      exact Except.noConfusion h

/-- Witness for C4: peeking 2 bytes from a 1-byte reader fails with
SizeExceeded. -/
theorem peek_read_bounds_witness :
    Stream.peek (mkStream [1]) 2 = Except.error Err.SizeExceeded :=
  (peek_read_bounds (mkStream [1]) 2).1.mpr (by decide)

/-- C5 (confirmed): on a well-formed reader, peek of any size within the
remaining length returns exactly the first size remaining bytes (a prefix of
length size whose concatenation with the rest restores the data), and any
finite sequence of peek calls leaves the reader state unchanged. -/
theorem peek_nondestructive (s : Stream) (n : Nat)
    (hwf : s.size = s.data.length) (hn : n ≤ s.size) :
    Stream.peek s n = Except.ok (s.data.take n) ∧
    (s.data.take n).length = n ∧
    s.data.take n ++ s.data.drop n = s.data ∧
    (∀ ns : List Nat, Stream.peekRun s ns = s) := by
  refine ⟨peek_ok s n hn, ?_, List.take_append_drop n s.data, peekRun_id s⟩
  rw [List.length_take]
  omega

/-- Witness for C5 on the reader over bytes 7, 8, 9 with size 2. -/
theorem peek_nondestructive_witness :
    Stream.peekRun (mkStream [7, 8, 9]) [1, 2] = mkStream [7, 8, 9] :=
  (peek_nondestructive (mkStream [7, 8, 9]) 2 rfl (by decide)).2.2.2 [1, 2]

/-- C6 (confirmed): the size field equals the length of the stored bytes after
construction and after every successful read or readSize (peek has no state
output); a successful read of n bytes on a well-formed reader decreases the
remaining length by exactly n; and any sequence of reads whose sizes sum to
the original length drains the reader to the empty state with the chunks
concatenating, in order, to the original bytes. -/
theorem stream_invariants :
    (∀ d : Buff, (mkStream d).size = (mkStream d).data.length) ∧
    (∀ (s : Stream) (n : Nat) (c : Buff) (t : Stream),
      Stream.read s n = (Except.ok c, t) → t.size = t.data.length) ∧
    (∀ (s : Stream) (e : Option Endian) (m : Nat) (t : Stream),
      Stream.readSize s e = (Except.ok m, t) → t.size = t.data.length) ∧
    (∀ (s : Stream) (n : Nat) (c : Buff) (t : Stream),
      s.size = s.data.length → Stream.read s n = (Except.ok c, t) →
      n ≤ s.size ∧ t.size + n = s.size) ∧
    (∀ (s : Stream) (ns : List Nat),
      s.size = s.data.length → ns.sum = s.size →
      ∃ cs, Stream.readRun s ns = some (cs, ⟨0, []⟩) ∧ cs.flatten = s.data) := by
  refine ⟨fun d => rfl, ?_, ?_, ?_, ?_⟩
  · intro s n c t h
    obtain ⟨-, -, rfl⟩ := read_ok_inv s n c t h
    rfl
  · intro s e m t h
    exact (readSize_ok_inv s e m t h).1
  · intro s n c t hwf h
    obtain ⟨hle, -, rfl⟩ := read_ok_inv s n c t h
    refine ⟨hle, ?_⟩
    simp only [List.length_drop]
    omega
  · intro s ns hwf hsum
    exact readRun_partition ns s hwf hsum

/-- Witness for C6: reads of sizes 2 and 1 drain the 3-byte reader over
1, 2, 3, and the chunks reassemble the data. -/
theorem stream_invariants_witness :
    ∃ cs, Stream.readRun (mkStream [1, 2, 3]) [2, 1] = some (cs, ⟨0, []⟩) ∧
      cs.flatten = (mkStream [1, 2, 3]).data :=
  stream_invariants.2.2.2.2 (mkStream [1, 2, 3]) [2, 1] rfl (by decide)

/-- C7 (confirmed): on a well-formed reader, a successful read with the size
omitted decomposes as a readSize call (consuming the prefix bytes) followed by
a read of exactly the decoded count: the payload is the first count bytes
after the prefix, a new buffer of exactly that length, and the cursor advances
by exactly prefix bytes plus payload bytes. -/
theorem readNoSize_spec (s : Stream) (c : Buff) (t : Stream)
    (hwf : s.size = s.data.length)
    (h : Stream.readNoSize s = (Except.ok c, t)) :
    ∃ n s1, Stream.readSize s none = (Except.ok n, s1) ∧
      Stream.read s1 n = (Except.ok c, t) ∧
      c = s1.data.take n ∧ c.length = n ∧
      t.size = t.data.length ∧
      s1.size ≤ s.size ∧
      t.size + (s.size - s1.size) + n = s.size := by
  unfold Stream.readNoSize at h
  rcases hE : Stream.readSize s none with ⟨r1, s1⟩
  rw [hE] at h
  cases r1 with
  | error e1 => simp at h
  | ok n =>
    obtain ⟨hwf1, hle1⟩ := readSize_ok_inv s none n s1 hE
    have hle1' := hle1 hwf
    dsimp only at h
    obtain ⟨hn, hc, ht⟩ := read_ok_inv s1 n c t h
    refine ⟨n, s1, rfl, h, hc, ?_, ?_, hle1', ?_⟩
    · rw [hc, List.length_take]
      omega
    · rw [ht]
    · rw [ht]
      simp only [List.length_drop]
      omega

/-- Witness for C7 on the reader over bytes 2, 7, 8: the prefix decodes to 2
and the payload is 7, 8. -/
theorem readNoSize_spec_witness :
    ∃ n s1, Stream.readSize (mkStream [2, 7, 8]) none = (Except.ok n, s1) ∧
      Stream.read s1 n = (Except.ok [7, 8], ⟨0, []⟩) ∧
      [7, 8] = s1.data.take n ∧ ([7, 8] : Buff).length = n ∧
      (⟨0, []⟩ : Stream).size = (⟨0, []⟩ : Stream).data.length ∧
      s1.size ≤ (mkStream [2, 7, 8]).size ∧
      (⟨0, []⟩ : Stream).size + ((mkStream [2, 7, 8]).size - s1.size) + n =
        (mkStream [2, 7, 8]).size :=
  readNoSize_spec (mkStream [2, 7, 8]) [7, 8] ⟨0, []⟩ rfl (by decide)

/-- C8 (confirmed): constructing a buffer with a target size yields a buffer
of exactly that length, whether the source bytes are longer (truncation) or
shorter (padding); the resize collaborator is modelled from the spec, whose
contract is exactly-target-length output. -/
theorem mkBuff_size_exact (d : Buff) (k : Nat) : (mkBuff d (some k)).length = k :=
  pad_array_length d k

/-- C9 (confirmed): reverse returns a buffer with the same bytes in reversed
order (reversing it again restores the original, and the length is preserved);
the receiver, a pure value in this embedding, is untouched.  Concretely, the
buffer built from hex "deadbeef" has length 4 and its reverse hex-encodes to
"efbeadde". -/
theorem reverse_spec :
    (∀ b : Buff, (Buff.reverse b).length = b.length ∧ List.reverse (Buff.reverse b) = b) ∧
    hexToBuff "deadbeef" none = some [0xde, 0xad, 0xbe, 0xef] ∧
    Option.map List.length (hexToBuff "deadbeef" none) = some 4 ∧
    Option.map (fun b => bytesToHex (Buff.reverse b)) (hexToBuff "deadbeef" none) =
      some "efbeadde" := by
  refine ⟨fun b => ⟨List.length_reverse b, List.reverse_reverse b⟩, by decide, by decide, by decide⟩

/-- C10 (confirmed): varInt performs no non-negativity check: every negative
input satisfies the first branch condition and yields the single-byte form, a
1-byte buffer (the modelled digit collaborator produces no digits for a
non-positive value, so the byte is 0 after padding); no error is raised. -/
theorem varInt_negative_single_byte (n : Int) (e : Option Endian) (h : n < 0) :
    varInt n e = Except.ok (numToBuff n (some 1) none) ∧
    (numToBuff n (some 1) none).length = 1 ∧
    numToBuff n (some 1) none = [0] := by
  have ht : n.toNat = 0 := Int.toNat_of_nonpos (le_of_lt h)
  have h1 : numToBuff n (some 1) none = [0] := by
    simp [numToBuff, mkBuff, ht, numToBytes, numToBytesAux, pad_array]
  refine ⟨?_, by rw [h1]; rfl, h1⟩
  unfold varInt
  rw [if_pos (by omega)]

/-- Witness for C10 at n = -5. -/
theorem varInt_negative_single_byte_witness :
    varInt (-5) none = Except.ok (numToBuff (-5) (some 1) none) ∧
    (numToBuff (-5) (some 1) none).length = 1 ∧
    numToBuff (-5) (some 1) none = [0] :=
  varInt_negative_single_byte (-5) none (by norm_num)


end BuffUtils
